import Mathlib

/-!
# Verification of the RIP routing engine (`src/rip_router.py`)

Shallow embedding of the `RIPRouter` class.  Python dictionaries are modelled
as association lists in insertion order (a new key is appended at the end,
updating an existing key keeps its position, `pop` removes the key), which
matches CPython dict iteration semantics.  Router identities, ports and
distances are `Nat` (the spec restricts distances to non-negative scalars).
A potential Python `KeyError` is modelled by `Option`: a handler returns
`none` exactly when the Python code would raise.
-/

namespace RIP

/-- A route: `(distance, port)`, the tuple stored in the Python table. -/
abbrev Route := Nat × Nat

/-- A neighbor's route set: Python `dict` destination ↦ `(distance, port)`. -/
abbrev RouteSet := List (Nat × Route)

/-- The routing table: Python `dict` neighbor ↦ route set. -/
abbrev Table := List (Nat × RouteSet)

/-- Python `d[k]` as an option (first occurrence wins; a genuine dict has
distinct keys, so this is exact on dict images). -/
def dGet {α : Type} : List (Nat × α) → Nat → Option α
  | [], _ => none
  | (k, v) :: l, k0 => if k = k0 then some v else dGet l k0

/-- Python `d[k] = v`: update in place if present, else append at the end. -/
def dSet {α : Type} : List (Nat × α) → Nat → α → List (Nat × α)
  | [], k, v => [(k, v)]
  | (k0, v0) :: l, k, v => if k0 = k then (k0, v) :: l else (k0, v0) :: dSet l k v

/-- Python `d.pop(k)`: remove the (first) occurrence of key `k`. -/
def dPop {α : Type} : List (Nat × α) → Nat → List (Nat × α)
  | [], _ => []
  | (k0, v0) :: l, k => if k0 = k then l else (k0, v0) :: dPop l k

/-- The keys of a dict, in order. -/
def dKeys {α : Type} (l : List (Nat × α)) : List Nat := l.map Prod.fst

/-- The three packet shapes dispatched by `handle_rx`: `DiscoveryPacket`,
`RoutingUpdate` (its `paths` dict as an association list destination ↦
distance, built by `add_destination` = `dSet`), and anything else, which the
dispatcher treats as a data payload to forward (modelled by destination plus
opaque content). -/
inductive Packet where
  | discovery (src : Nat) (latency : Nat) (is_link_up : Bool)
  | routingUpdate (src : Nat) (paths : List (Nat × Nat))
  | data (dst : Nat) (content : Nat)
  deriving DecidableEq, Repr

/-- An emitted event: `self.send(packet, port, False)`. -/
abbrev Sent := Packet × Nat

/-- One step of the `all_shortest_paths` accumulation in `_announce`:
`if dest not in all_shortest_paths or all_shortest_paths[dest][0] > distance:
 all_shortest_paths[dest] = (distance, port)`. -/
def bestStep (acc : RouteSet) (e : Nat × Route) : RouteSet :=
  match dGet acc e.1 with
  | none => dSet acc e.1 e.2
  | some r => if r.1 > e.2.1 then dSet acc e.1 e.2 else acc

/-- `all_shortest_paths` of `_announce`: fold over every route set's entries
in table order. -/
def allShortestPaths (t : Table) : RouteSet :=
  t.foldl (fun acc nr => nr.2.foldl bestStep acc) []

/-- The advertisement body built for one neighbor in `_announce`: iterate
`all_shortest_paths.items()`, skip entries whose winning port equals the
neighbor's port (split horizon), and `add_destination` (dict set) the rest. -/
def buildUpdate (best : RouteSet) (nport : Nat) : List (Nat × Nat) :=
  best.foldl (fun pk e => if e.2.2 = nport then pk else dSet pk e.1 e.2.1) []

/-- `_announce`: per neighbor, read the self-entry's port
(`neighbor_routes[neighbor][1]`, a `KeyError` if absent, hence `Option`) and
send one `RoutingUpdate` out that port.  An outgoing `RoutingUpdate()` has no
source set by the engine (the harness stamps it on delivery), so its `src`
field is the placeholder 0 here. -/
def announce (t : Table) : Option (List Sent) :=
  t.mapM fun nr =>
    match dGet nr.2 nr.1 with
    | none => none
    | some se =>
      some (Packet.routingUpdate 0 (buildUpdate (allShortestPaths t) se.2), se.2)

/-- `_handleDiscoveryPacket`: link up replaces the neighbor's set with the
singleton self-entry and announces; link down pops the neighbor if present
and announces, else does nothing. -/
def handleDiscoveryPacket (t : Table) (src latency : Nat) (is_link_up : Bool)
    (port : Nat) : Option (Table × List Sent) :=
  if is_link_up then
    match announce (dSet t src [(src, (latency, port))]) with
    | none => none
    | some sends => some (dSet t src [(src, (latency, port))], sends)
  else if (dGet t src).isSome then
    match announce (dPop t src) with
    | none => none
    | some sends => some (dPop t src, sends)
  else some (t, [])

/-- One iteration of the merge loop of `_handleRoutingUpdate`, given the
direct link distance `dd` (read from the table's self-entry) and the arrival
`port`:  `new_distance = advertised + dd`; overwrite when the destination is
absent or strictly worse, setting the `updated` flag. -/
def mergeStep (dd port : Nat) (acc : RouteSet × Bool) (p : Nat × Nat) :
    RouteSet × Bool :=
  let nd := p.2 + dd
  match dGet acc.1 p.1 with
  | none => (dSet acc.1 p.1 (nd, port), true)
  | some r => if r.1 > nd then (dSet acc.1 p.1 (nd, port), true) else acc

/-- The merge loop with the self-entry lookup
(`self.routingTable[packet.src][packet.src][0]`) performed inside each
iteration, as the Python code does: with an empty advertisement no lookup
happens, otherwise a missing self-entry is a `KeyError`. -/
def mergeStepO (rs : RouteSet) (src port : Nat) (acc : Option (RouteSet × Bool))
    (p : Nat × Nat) : Option (RouteSet × Bool) :=
  match acc with
  | none => none
  | some ib =>
    match dGet rs src with
    | none => none
    | some se => some (mergeStep se.1 port ib p)

/-- `_handleRoutingUpdate`: drop updates from unknown neighbors; otherwise
merge into a copy of the neighbor's set, and only on a change write the
merged copy back and announce. -/
def handleRoutingUpdate (t : Table) (src : Nat) (paths : List (Nat × Nat))
    (port : Nat) : Option (Table × List Sent) :=
  match dGet t src with
  | none => some (t, [])
  | some rs =>
    match paths.foldl (mergeStepO rs src port) (some (rs, false)) with
    | none => none
    | some (info, upd) =>
      if upd then
        match announce (dSet t src info) with
        | none => none
        | some sends => some (dSet t src info, sends)
      else some (t, [])

/-- The running-minimum step of the forwarder's scan:
`if not shortest_path or routes[packet.dst][0] < shortest_path[0]`. -/
def scanStep (acc : Option Route) (r : Route) : Option Route :=
  match acc with
  | none => some r
  | some s => if r.1 < s.1 then some r else acc

/-- The scan of `_handleDataPacket`: iterate the table, and for each route
set containing the destination keep the strictly smaller distance
(first-seen wins on ties). -/
def forwarderScan (t : Table) (dst : Nat) : Option Route :=
  t.foldl
    (fun acc nr =>
      match dGet nr.2 dst with
      | none => acc
      | some r => scanStep acc r)
    none

/-- `_handleDataPacket`: forward the payload unchanged out the selected port,
or drop it (diagnostic only) when no route set contains the destination. -/
def handleDataPacket (t : Table) (dst content : Nat) : List Sent :=
  match forwarderScan t dst with
  | none => []
  | some r => [(Packet.data dst content, r.2)]

/-- `handle_rx`: dispatch on the packet kind. -/
def handle_rx (t : Table) (pkt : Packet) (port : Nat) :
    Option (Table × List Sent) :=
  match pkt with
  | .discovery src latency up => handleDiscoveryPacket t src latency up port
  | .routingUpdate src paths => handleRoutingUpdate t src paths port
  | .data dst content => some (t, handleDataPacket t dst content)

/-- Run the engine from a table over a sequence of received events
(packet, arrival port), returning the final table. -/
def run : Table → List (Packet × Nat) → Option Table
  | t, [] => some t
  | t, e :: evs =>
    match handle_rx t e.1 e.2 with
    | none => none
    | some (t1, _) => run t1 evs

/-- Run the engine from a table, also collecting every emitted event in
order. -/
def runTrace : Table → List (Packet × Nat) → Option (Table × List Sent)
  | t, [] => some (t, [])
  | t, e :: evs =>
    match handle_rx t e.1 e.2 with
    | none => none
    | some (t1, out) =>
      match runTrace t1 evs with
      | none => none
      | some (t2, outs) => some (t2, out ++ outs)

/-- The `(latency, port)` carried by one event if it is a link-up for `n`. -/
def linkUpOf (e : Packet × Nat) (n : Nat) : Option Route :=
  match e with
  | (.discovery src latency true, port) =>
    if src = n then some (latency, port) else none
  | _ => none

/-- The `(latency, port)` of the most recent link-up event for `n` in the
event sequence, if any. -/
def lastLinkUp : List (Packet × Nat) → Nat → Option Route
  | [], _ => none
  | e :: evs, n =>
    match lastLinkUp evs n with
    | some r => some r
    | none => linkUpOf e n

/-- The self-entry of neighbor `n` in the table, when both lookups succeed. -/
def selfOf (t : Table) (n : Nat) : Option Route :=
  match dGet t n with
  | none => none
  | some rs => dGet rs n

/-- Every neighbor present in the table has a self-entry. -/
def SelfKeyed (t : Table) : Prop :=
  ∀ nr ∈ t, (dGet nr.2 nr.1).isSome

/-- Every route set in the table has distinct destination keys (true of any
Python dict image). -/
def SetsNodup (t : Table) : Prop :=
  ∀ nr ∈ t, (dKeys nr.2).Nodup

/-- The condition under which one merge iteration of `_handleRoutingUpdate`
overwrites: the destination is absent or the stored distance is strictly
greater than the candidate `advertised + direct`. -/
def MergeCond (dd : Nat) (info : RouteSet) (p : Nat × Nat) : Prop :=
  dGet info p.1 = none ∨ ∃ r, dGet info p.1 = some r ∧ r.1 > p.2 + dd

/-- The route candidates for a destination: every table entry whose route
set contains it, in table order. -/
def occs (t : Table) (dst : Nat) : List Route :=
  t.filterMap (fun nr => dGet nr.2 dst)

/-! ## Dictionary lemmas -/

theorem dGet_dSet_self {α : Type} (l : List (Nat × α)) (k : Nat) (v : α) :
    dGet (dSet l k v) k = some v := by
  induction l with
  | nil => simp [dGet, dSet]
  | cons hd tl ih =>
    obtain ⟨k0, v0⟩ := hd
    simp only [dSet]
    split
    · simp [dGet, *]
    · simp only [dGet]
      split
      · omega
      · exact ih

theorem dGet_dSet_ne {α : Type} (l : List (Nat × α)) {k k0 : Nat} (v : α)
    (h : k ≠ k0) : dGet (dSet l k v) k0 = dGet l k0 := by
  induction l with
  | nil => simp [dGet, dSet, h]
  | cons hd tl ih =>
    obtain ⟨k1, v1⟩ := hd
    simp only [dSet]
    split
    · simp only [dGet]
      split
      · omega
      · rfl
    · simp only [dGet]
      split
      · rfl
      · exact ih

theorem dGet_dPop_ne {α : Type} (l : List (Nat × α)) {k k0 : Nat} (h : k0 ≠ k) :
    dGet (dPop l k) k0 = dGet l k0 := by
  induction l with
  | nil => simp [dPop]
  | cons hd tl ih =>
    obtain ⟨k1, v1⟩ := hd
    simp only [dPop]
    split
    · simp only [dGet]
      split
      · omega
      · rfl
    · simp only [dGet]
      split
      · rfl
      · exact ih

theorem dGet_eq_none_iff {α : Type} (l : List (Nat × α)) (k : Nat) :
    dGet l k = none ↔ k ∉ dKeys l := by
  induction l with
  | nil => simp [dGet, dKeys]
  | cons hd tl ih =>
    obtain ⟨k1, v1⟩ := hd
    simp only [dGet, dKeys, List.map_cons, List.mem_cons]
    split
    · simp_all
    · simp only [ih, dKeys]
      constructor
      · intro hn hc
        rcases hc with hc | hc
        · omega
        · exact hn hc
      · intro hn hc
        exact hn (Or.inr hc)

theorem dGet_mem {α : Type} {l : List (Nat × α)} {k : Nat} {v : α}
    (h : dGet l k = some v) : (k, v) ∈ l := by
  induction l with
  | nil => simp [dGet] at h
  | cons hd tl ih =>
    obtain ⟨k1, v1⟩ := hd
    simp only [dGet] at h
    split at h
    · simp_all
    · exact List.mem_cons_of_mem _ (ih h)

theorem dGet_isSome_iff {α : Type} (l : List (Nat × α)) (k : Nat) :
    (dGet l k).isSome ↔ k ∈ dKeys l := by
  rcases h : dGet l k with _ | v
  · simp [(dGet_eq_none_iff l k).mp h]
  · simp only [Option.isSome_some, true_iff]
    exact List.mem_map.mpr ⟨(k, v), dGet_mem h, rfl⟩

theorem dGet_dPop_self {α : Type} (l : List (Nat × α)) (k : Nat)
    (hnd : (dKeys l).Nodup) : dGet (dPop l k) k = none := by
  induction l with
  | nil => simp [dPop, dGet]
  | cons hd tl ih =>
    obtain ⟨k1, v1⟩ := hd
    simp only [dKeys, List.map_cons, List.nodup_cons] at hnd
    simp only [dPop]
    split
    · next heq =>
      subst heq
      rw [dGet_eq_none_iff]
      exact hnd.1
    · simp only [dGet]
      split
      · omega
      · exact ih hnd.2

theorem dPop_sublist {α : Type} (l : List (Nat × α)) (k : Nat) :
    (dPop l k).Sublist l := by
  induction l with
  | nil => simp [dPop]
  | cons hd tl ih =>
    obtain ⟨k1, v1⟩ := hd
    simp only [dPop]
    split
    · exact List.sublist_cons_self _ _
    · exact List.Sublist.cons₂ _ ih

theorem mem_dSet {α : Type} {l : List (Nat × α)} {k : Nat} {v : α} {nr : Nat × α}
    (h : nr ∈ dSet l k v) : nr ∈ l ∨ nr = (k, v) := by
  induction l with
  | nil => simp [dSet] at h; simp [h]
  | cons hd tl ih =>
    obtain ⟨k1, v1⟩ := hd
    simp only [dSet] at h
    split at h
    · rcases List.mem_cons.mp h with h | h
      · subst h; right; simp_all
      · exact Or.inl (List.mem_cons_of_mem _ h)
    · rcases List.mem_cons.mp h with h | h
      · exact Or.inl (h ▸ List.mem_cons_self _ _)
      · rcases ih h with h | h
        · exact Or.inl (List.mem_cons_of_mem _ h)
        · exact Or.inr h

theorem dKeys_dSet {α : Type} (l : List (Nat × α)) (k : Nat) (v : α) :
    dKeys (dSet l k v) = if k ∈ dKeys l then dKeys l else dKeys l ++ [k] := by
  induction l with
  | nil => simp [dSet, dKeys]
  | cons hd tl ih =>
    obtain ⟨k1, v1⟩ := hd
    by_cases hkk : k1 = k
    · subst hkk
      simp [dSet, dKeys]
    · simp only [dSet, if_neg hkk, dKeys, List.map_cons] at *
      have hne : ¬ k = k1 := fun h => hkk h.symm
      by_cases hk : k ∈ List.map Prod.fst tl
      · rw [if_pos (List.mem_cons.mpr (Or.inr hk)), ih, if_pos hk]
      · rw [if_neg (by simp [hne, hk]), ih, if_neg hk]
        simp

theorem dKeys_dSet_nodup {α : Type} {l : List (Nat × α)} (k : Nat) (v : α)
    (h : (dKeys l).Nodup) : (dKeys (dSet l k v)).Nodup := by
  rw [dKeys_dSet]
  split
  · exact h
  · next hk =>
    rw [List.nodup_append]
    refine ⟨h, List.nodup_singleton k, ?_⟩
    intro a ha hb
    rw [List.mem_singleton] at hb
    subst hb
    exact hk ha

theorem dSet_ne_nil {α : Type} (l : List (Nat × α)) (k : Nat) (v : α) :
    dSet l k v ≠ [] := by
  cases l with
  | nil => simp [dSet]
  | cons hd tl =>
    obtain ⟨k0, v0⟩ := hd
    simp only [dSet]
    split <;> simp

theorem mem_dGet {α : Type} {l : List (Nat × α)} {k : Nat} {v : α}
    (h : (k, v) ∈ l) (hnd : (dKeys l).Nodup) : dGet l k = some v := by
  induction l with
  | nil => simp at h
  | cons hd tl ih =>
    obtain ⟨k1, v1⟩ := hd
    simp only [dKeys, List.map_cons, List.nodup_cons] at hnd
    rcases List.mem_cons.mp h with h | h
    · cases h
      simp [dGet]
    · simp only [dGet]
      split
      · next heq =>
        subst heq
        exact absurd (List.mem_map.mpr ⟨(k1, v), h, rfl⟩) hnd.1
      · exact ih h hnd.2

theorem dSet_append {α : Type} {l : List (Nat × α)} {k : Nat} (v : α)
    (h : k ∉ dKeys l) : dSet l k v = l ++ [(k, v)] := by
  induction l with
  | nil => simp [dSet]
  | cons hd tl ih =>
    obtain ⟨k1, v1⟩ := hd
    simp only [dKeys, List.map_cons, List.mem_cons] at h
    simp only [dSet]
    split
    · omega
    · rw [List.cons_append, ih (fun hc => h (Or.inr hc))]

/-! ## Merge-loop lemmas (`_handleRoutingUpdate`) -/

theorem mergeStep_spec (dd port : Nat) (acc : RouteSet × Bool) (p : Nat × Nat) :
    (MergeCond dd acc.1 p ∧
      (mergeStep dd port acc p).1 = dSet acc.1 p.1 (p.2 + dd, port) ∧
      (mergeStep dd port acc p).2 = true)
    ∨ (¬ MergeCond dd acc.1 p ∧ mergeStep dd port acc p = acc) := by
  unfold mergeStep MergeCond
  rcases hg : dGet acc.1 p.1 with _ | r
  · exact Or.inl ⟨Or.inl rfl, by simp, by simp⟩
  · by_cases hlt : r.1 > p.2 + dd
    · refine Or.inl ⟨Or.inr ⟨r, rfl, hlt⟩, ?_, ?_⟩ <;> simp [hlt]
    · refine Or.inr ⟨?_, by simp [hlt]⟩
      rintro (hc | ⟨r0, hr0, hlt0⟩)
      · exact absurd hc (by simp)
      · rw [Option.some_inj] at hr0
        subst hr0
        exact hlt hlt0

theorem mergeStep_get_ne (dd port : Nat) (acc : RouteSet × Bool) (p : Nat × Nat)
    (d : Nat) (h : p.1 ≠ d) :
    dGet (mergeStep dd port acc p).1 d = dGet acc.1 d := by
  rcases mergeStep_spec dd port acc p with ⟨_, h1, _⟩ | ⟨_, h1⟩
  · rw [h1, dGet_dSet_ne _ _ h]
  · rw [h1]

theorem mergeStep_true (dd port : Nat) (acc : RouteSet × Bool) (p : Nat × Nat)
    (h : acc.2 = true) : (mergeStep dd port acc p).2 = true := by
  rcases mergeStep_spec dd port acc p with ⟨_, _, h2⟩ | ⟨_, h2⟩
  · exact h2
  · rw [h2]; exact h

theorem mergeFold_frame (dd port : Nat) (paths : List (Nat × Nat))
    (acc : RouteSet × Bool) (d : Nat) (hd : d ∉ paths.map Prod.fst) :
    dGet (paths.foldl (mergeStep dd port) acc).1 d = dGet acc.1 d := by
  induction paths generalizing acc with
  | nil => rfl
  | cons p l ih =>
    simp only [List.map_cons, List.mem_cons] at hd
    rw [List.foldl_cons, ih _ (fun hc => hd (Or.inr hc)),
      mergeStep_get_ne _ _ _ _ _ (fun hc => hd (Or.inl hc.symm))]

theorem mergeFold_get (dd port : Nat) (paths : List (Nat × Nat))
    (hnd : (paths.map Prod.fst).Nodup) (acc : RouteSet × Bool) (d a : Nat)
    (hmem : (d, a) ∈ paths) :
    dGet (paths.foldl (mergeStep dd port) acc).1 d =
      (match dGet acc.1 d with
       | none => some (a + dd, port)
       | some r => if r.1 > a + dd then some (a + dd, port) else some r) := by
  induction paths generalizing acc with
  | nil => simp at hmem
  | cons p l ih =>
    simp only [List.map_cons, List.nodup_cons] at hnd
    rcases List.mem_cons.mp hmem with hmem | hmem
    · subst hmem
      rw [List.foldl_cons,
        mergeFold_frame _ _ _ _ _ (by simpa using hnd.1)]
      rcases mergeStep_spec dd port acc (d, a) with ⟨hc, h1, _⟩ | ⟨hc, h1⟩
      · rw [h1, dGet_dSet_self]
        rcases hc with hc | ⟨r, hr, hlt⟩
        · rw [hc]
        · rw [hr]
          simp [hlt]
      · rw [h1]
        unfold MergeCond at hc
        push_neg at hc
        rcases hg : dGet acc.1 d with _ | r
        · exact absurd hg hc.1
        · have := hc.2 r hg
          simp only [Nat.not_lt] at this ⊢
          rw [if_neg (by omega)]
    · have hne : p.1 ≠ d := by
        intro hc
        exact hnd.1 (hc ▸ List.mem_map.mpr ⟨(d, a), hmem, rfl⟩)
      rw [List.foldl_cons, ih hnd.2 _ hmem, mergeStep_get_ne _ _ _ _ _ hne]

theorem mergeFold_true_aux (dd port : Nat) (paths : List (Nat × Nat))
    (acc : RouteSet × Bool) (h : acc.2 = true) :
    (paths.foldl (mergeStep dd port) acc).2 = true := by
  induction paths generalizing acc with
  | nil => exact h
  | cons p l ih =>
    rw [List.foldl_cons]
    exact ih _ (mergeStep_true dd port acc p h)

theorem mergeFold_false (dd port : Nat) (paths : List (Nat × Nat))
    (acc : RouteSet × Bool)
    (h : (paths.foldl (mergeStep dd port) acc).2 = false) :
    paths.foldl (mergeStep dd port) acc = acc := by
  induction paths generalizing acc with
  | nil => rfl
  | cons p l ih =>
    rw [List.foldl_cons] at h ⊢
    rcases mergeStep_spec dd port acc p with ⟨_, _, h2⟩ | ⟨_, h2⟩
    · have := mergeFold_true_aux dd port l _ h2
      rw [this] at h
      cases h
    · rw [h2] at h ⊢
      exact ih _ h

theorem mergeFold_exists (dd port : Nat) (paths : List (Nat × Nat))
    (acc : RouteSet × Bool)
    (h : (paths.foldl (mergeStep dd port) acc).2 = true) (hacc : acc.2 = false) :
    ∃ d a, (d, a) ∈ paths ∧ MergeCond dd acc.1 (d, a) := by
  induction paths generalizing acc with
  | nil => rw [List.foldl_nil] at h; rw [h] at hacc; cases hacc
  | cons p l ih =>
    rw [List.foldl_cons] at h
    rcases mergeStep_spec dd port acc p with ⟨hc, _, _⟩ | ⟨_, h2⟩
    · exact ⟨p.1, p.2, List.mem_cons_self _ _, hc⟩
    · rw [h2] at h
      obtain ⟨d, a, hmem, hcond⟩ := ih _ h hacc
      exact ⟨d, a, List.mem_cons_of_mem _ hmem, hcond⟩

theorem mergeFold_self (se : Route) (src port : Nat) (paths : List (Nat × Nat))
    (acc : RouteSet × Bool) (h : dGet acc.1 src = some se) :
    dGet (paths.foldl (mergeStep se.1 port) acc).1 src = some se := by
  induction paths generalizing acc with
  | nil => exact h
  | cons p l ih =>
    rw [List.foldl_cons]
    refine ih _ ?_
    by_cases hps : p.1 = src
    · rcases mergeStep_spec se.1 port acc p with ⟨hc, _, _⟩ | ⟨_, h2⟩
      · rcases hc with hc | ⟨r, hr, hlt⟩
        · rw [hps] at hc; rw [hc] at h; cases h
        · rw [hps] at hr; rw [hr] at h
          rw [Option.some_inj] at h
          subst h
          omega
      · rw [h2]; exact h
    · rw [mergeStep_get_ne _ _ _ _ _ hps]; exact h

theorem mergeFoldO_eq (rs : RouteSet) (src port : Nat)
    (paths : List (Nat × Nat)) (se : Route) (h : dGet rs src = some se)
    (acc : RouteSet × Bool) :
    paths.foldl (mergeStepO rs src port) (some acc) =
      some (paths.foldl (mergeStep se.1 port) acc) := by
  induction paths generalizing acc with
  | nil => rfl
  | cons p l ih =>
    rw [List.foldl_cons, List.foldl_cons]
    have hstep : mergeStepO rs src port (some acc) p
        = some (mergeStep se.1 port acc p) := by
      unfold mergeStepO
      rw [h]
    rw [hstep, ih]

/-! ## Forwarder scan lemmas (`_handleDataPacket`) -/

theorem forwarderScan_aux (dst : Nat) (t : Table) :
    ∀ acc : Option Route,
      t.foldl
        (fun acc nr =>
          match dGet nr.2 dst with
          | none => acc
          | some r => scanStep acc r) acc
      = (t.filterMap (fun nr => dGet nr.2 dst)).foldl scanStep acc := by
  induction t with
  | nil => intro acc; rfl
  | cons nr l ih =>
    intro acc
    rcases hg : dGet nr.2 dst with _ | r <;>
      simp [List.filterMap_cons, hg, ih]

theorem forwarderScan_eq_occs (t : Table) (dst : Nat) :
    forwarderScan t dst = (occs t dst).foldl scanStep none :=
  forwarderScan_aux dst t none

theorem scan_foldl_spec (l : List Route) :
    ∀ s : Route, ∃ r, l.foldl scanStep (some s) = some r ∧ (r = s ∨ r ∈ l) ∧
      r.1 ≤ s.1 ∧ (∀ x ∈ l, r.1 ≤ x.1) ∧
      (s :: l).find? (fun x => decide (x.1 ≤ r.1)) = some r := by
  induction l with
  | nil =>
    intro s
    refine ⟨s, rfl, Or.inl rfl, Nat.le_refl _, by simp, ?_⟩
    rw [List.find?_cons_of_pos _ (by simp)]
  | cons a l ih =>
    intro s
    rw [List.foldl_cons]
    by_cases hlt : a.1 < s.1
    · have hstep : scanStep (some s) a = some a := by simp [scanStep, hlt]
      rw [hstep]
      obtain ⟨r, h1, h2, h3, h4, h5⟩ := ih a
      refine ⟨r, h1, ?_, by omega, ?_, ?_⟩
      · rcases h2 with h2 | h2
        · exact Or.inr (h2 ▸ List.mem_cons_self a l)
        · exact Or.inr (List.mem_cons_of_mem _ h2)
      · intro x hx
        rcases List.mem_cons.mp hx with hx | hx
        · exact hx ▸ h3
        · exact h4 x hx
      · rw [List.find?_cons_of_neg _ (by simp only [decide_eq_true_eq]; omega)]
        exact h5
    · have hstep : scanStep (some s) a = some s := by simp [scanStep, hlt]
      rw [hstep]
      obtain ⟨r, h1, h2, h3, h4, h5⟩ := ih s
      refine ⟨r, h1, ?_, h3, ?_, ?_⟩
      · rcases h2 with h2 | h2
        · exact Or.inl h2
        · exact Or.inr (List.mem_cons_of_mem _ h2)
      · intro x hx
        rcases List.mem_cons.mp hx with hx | hx
        · subst hx; omega
        · exact h4 x hx
      · by_cases hsr : s.1 ≤ r.1
        · rw [List.find?_cons_of_pos _ (by simpa using hsr)] at h5 ⊢
          exact h5
        · rw [List.find?_cons_of_neg _ (by simpa using hsr)] at h5
          rw [List.find?_cons_of_neg _ (by simpa using hsr),
            List.find?_cons_of_neg _ (by simp only [decide_eq_true_eq]; omega)]
          exact h5

theorem forwarderScan_none_iff (t : Table) (dst : Nat) :
    forwarderScan t dst = none ↔ occs t dst = [] := by
  rw [forwarderScan_eq_occs]
  rcases hocc : occs t dst with _ | ⟨a, l⟩
  · simp
  · rw [List.foldl_cons]
    have hstep : scanStep none a = some a := rfl
    rw [hstep]
    obtain ⟨r, h1, -⟩ := scan_foldl_spec l a
    simp [h1]

theorem forwarderScan_some_spec (t : Table) (dst : Nat) (r : Route)
    (h : forwarderScan t dst = some r) :
    r ∈ occs t dst ∧ (∀ x ∈ occs t dst, r.1 ≤ x.1) ∧
      (occs t dst).find? (fun x => decide (x.1 ≤ r.1)) = some r := by
  rw [forwarderScan_eq_occs] at h
  rcases hocc : occs t dst with _ | ⟨a, l⟩
  · rw [hocc] at h; cases h
  · rw [hocc, List.foldl_cons] at h
    have hstep : scanStep none a = some a := rfl
    rw [hstep] at h
    obtain ⟨r0, h1, h2, h3, h4, h5⟩ := scan_foldl_spec l a
    rw [h1, Option.some_inj] at h
    subst h
    refine ⟨?_, ?_, h5⟩
    · rcases h2 with h2 | h2
      · exact h2 ▸ List.mem_cons_self a l
      · exact List.mem_cons_of_mem _ h2
    · intro x hx
      rcases List.mem_cons.mp hx with hx | hx
      · exact hx ▸ h3
      · exact h4 x hx

theorem occs_eq_nil_iff (t : Table) (dst : Nat) :
    occs t dst = [] ↔ ∀ nr ∈ t, dGet nr.2 dst = none := by
  unfold occs
  exact List.filterMap_eq_nil_iff

/-! ## Best-paths lemmas (`_announce`) -/

theorem bestStep_get (acc : RouteSet) (e : Nat × Route) (d : Nat) :
    dGet (bestStep acc e) d =
      if e.1 = d then
        (match dGet acc d with
         | none => some e.2
         | some r => if r.1 > e.2.1 then some e.2 else some r)
      else dGet acc d := by
  unfold bestStep
  by_cases hed : e.1 = d
  · subst hed
    rcases hg : dGet acc e.1 with _ | r
    · simp [hg, dGet_dSet_self]
    · by_cases hlt : r.1 > e.2.1
      · simp [hg, hlt, dGet_dSet_self]
      · simp [hg, hlt]
  · rcases hg : dGet acc e.1 with _ | r
    · simp [hg, dGet_dSet_ne _ _ hed, hed]
    · by_cases hlt : r.1 > e.2.1
      · simp [hg, hlt, dGet_dSet_ne _ _ hed, hed]
      · simp [hg, hlt, hed]

theorem bestFold_get (rs : RouteSet) (hnd : (dKeys rs).Nodup) (acc : RouteSet)
    (d : Nat) :
    dGet (rs.foldl bestStep acc) d =
      match dGet rs d with
      | none => dGet acc d
      | some r => scanStep (dGet acc d) r := by
  induction rs generalizing acc with
  | nil => rfl
  | cons e l ih =>
    obtain ⟨k, v⟩ := e
    simp only [dKeys, List.map_cons, List.nodup_cons] at hnd
    rw [List.foldl_cons, ih hnd.2]
    by_cases hkd : k = d
    · subst hkd
      have hld : dGet l k = none := (dGet_eq_none_iff _ _).mpr hnd.1
      rw [hld]
      have hhd : dGet ((k, v) :: l) k = some v := by simp [dGet]
      rw [hhd]
      rw [bestStep_get acc (k, v) k, if_pos rfl]
      rcases hacc : dGet acc k with _ | s
      · rfl
      · rfl
    · have htl : dGet ((k, v) :: l) d = dGet l d := by simp [dGet, hkd]
      rw [htl]
      have hbs : dGet (bestStep acc (k, v)) d = dGet acc d := by
        rw [bestStep_get acc (k, v) d, if_neg hkd]
      rw [hbs]

theorem allShortest_aux (dst : Nat) (t : Table) :
    ∀ acc : RouteSet, (∀ nr ∈ t, (dKeys nr.2).Nodup) →
      dGet (t.foldl (fun acc nr => nr.2.foldl bestStep acc) acc) dst =
        t.foldl
          (fun acc nr =>
            match dGet nr.2 dst with
            | none => acc
            | some r => scanStep acc r) (dGet acc dst) := by
  induction t with
  | nil => intro acc _; rfl
  | cons nr l ih =>
    intro acc hs
    rw [List.foldl_cons, List.foldl_cons,
      ih _ (fun x hx => hs x (List.mem_cons_of_mem _ hx)),
      bestFold_get nr.2 (hs nr (List.mem_cons_self _ _))]

theorem allShortestPaths_get (t : Table) (hs : SetsNodup t) (d : Nat) :
    dGet (allShortestPaths t) d = forwarderScan t d := by
  unfold allShortestPaths forwarderScan
  have h := allShortest_aux d t [] hs
  have hnil : dGet ([] : RouteSet) d = none := rfl
  rw [hnil] at h
  exact h

theorem bestStep_nodup (acc : RouteSet) (e : Nat × Route)
    (h : (dKeys acc).Nodup) : (dKeys (bestStep acc e)).Nodup := by
  unfold bestStep
  rcases hg : dGet acc e.1 with _ | r
  · exact dKeys_dSet_nodup _ _ h
  · show (dKeys (if r.1 > e.2.1 then dSet acc e.1 e.2 else acc)).Nodup
    by_cases hlt : r.1 > e.2.1
    · rw [if_pos hlt]
      exact dKeys_dSet_nodup _ _ h
    · rw [if_neg hlt]
      exact h

theorem bestFold_nodup (rs : RouteSet) (acc : RouteSet)
    (h : (dKeys acc).Nodup) : (dKeys (rs.foldl bestStep acc)).Nodup := by
  induction rs generalizing acc with
  | nil => exact h
  | cons e l ih =>
    rw [List.foldl_cons]
    exact ih _ (bestStep_nodup acc e h)

theorem allShortestPaths_nodup (t : Table) :
    (dKeys (allShortestPaths t)).Nodup := by
  unfold allShortestPaths
  suffices h : ∀ acc : RouteSet, (dKeys acc).Nodup →
      (dKeys (t.foldl (fun acc nr => nr.2.foldl bestStep acc) acc)).Nodup by
    exact h [] (by simp [dKeys])
  induction t with
  | nil => intro acc h; exact h
  | cons nr l ih =>
    intro acc h
    rw [List.foldl_cons]
    exact ih _ (bestFold_nodup nr.2 acc h)

/-! ## Advertisement-body lemmas (`_announce` split horizon) -/

theorem buildUpdate_go (nport : Nat) (best : RouteSet) :
    ∀ pk : List (Nat × Nat), (dKeys best).Nodup →
      (∀ e ∈ best, e.1 ∉ dKeys pk) →
      best.foldl (fun pk e => if e.2.2 = nport then pk else dSet pk e.1 e.2.1) pk
        = pk ++ (best.filter fun e => decide (e.2.2 ≠ nport)).map
            (fun e => (e.1, e.2.1)) := by
  induction best with
  | nil => intro pk _ _; simp
  | cons e l ih =>
    intro pk hnd hfresh
    simp only [dKeys, List.map_cons, List.nodup_cons] at hnd
    rw [List.foldl_cons]
    by_cases hp : e.2.2 = nport
    · rw [if_pos hp, ih pk hnd.2 (fun x hx => hfresh x (List.mem_cons_of_mem _ hx)),
        List.filter_cons]
      simp [hp]
    · rw [if_neg hp]
      have hfr : e.1 ∉ dKeys pk := hfresh e (List.mem_cons_self _ _)
      rw [dSet_append _ hfr]
      rw [ih (pk ++ [(e.1, e.2.1)]) hnd.2 ?hfresh2]
      case hfresh2 =>
        intro x hx
        simp only [dKeys, List.map_append, List.mem_append, List.map_cons,
          List.map_nil, List.mem_singleton]
        rintro (hc | hc)
        · exact hfresh x (List.mem_cons_of_mem _ hx) hc
        · exact hnd.1 (hc ▸ List.mem_map.mpr ⟨x, hx, rfl⟩)
      rw [List.filter_cons]
      simp [hp]

theorem buildUpdate_eq (best : RouteSet) (nport : Nat)
    (hnd : (dKeys best).Nodup) :
    buildUpdate best nport
      = (best.filter fun e => decide (e.2.2 ≠ nport)).map (fun e => (e.1, e.2.1)) := by
  unfold buildUpdate
  have h := buildUpdate_go nport best [] hnd (by simp [dKeys])
  simpa using h

theorem buildUpdate_mem (best : RouteSet) (nport : Nat)
    (hnd : (dKeys best).Nodup) (d dist : Nat) :
    (d, dist) ∈ buildUpdate best nport
      ↔ ∃ p, dGet best d = some (dist, p) ∧ p ≠ nport := by
  rw [buildUpdate_eq _ _ hnd]
  simp only [List.mem_map, List.mem_filter, decide_eq_true_eq]
  constructor
  · rintro ⟨e, ⟨he, hp⟩, heq⟩
    obtain ⟨k, dist0, p0⟩ := e
    obtain ⟨rfl, rfl⟩ := Prod.mk.injEq _ _ _ _ ▸ heq
    exact ⟨p0, mem_dGet he hnd, hp⟩
  · rintro ⟨p, hg, hp⟩
    exact ⟨(d, (dist, p)), ⟨dGet_mem hg, hp⟩, rfl⟩

/-! ## Announcer emission lemmas -/

theorem mapM_announce (best : RouteSet) (l : Table)
    (h : ∀ nr ∈ l, (dGet nr.2 nr.1).isSome) :
    ∃ sends,
      (l.mapM fun nr =>
        match dGet nr.2 nr.1 with
        | none => none
        | some se =>
          some (Packet.routingUpdate 0 (buildUpdate best se.2), se.2)) = some sends ∧
      List.Forall₂ (fun (nr : Nat × RouteSet) (out : Sent) =>
        ∃ se, dGet nr.2 nr.1 = some se ∧
          out = (Packet.routingUpdate 0 (buildUpdate best se.2), se.2)) l sends := by
  induction l with
  | nil => exact ⟨[], rfl, List.Forall₂.nil⟩
  | cons nr l ih =>
    obtain ⟨sends, hs, hrel⟩ := ih (fun x hx => h x (List.mem_cons_of_mem _ hx))
    have hnr := h nr (List.mem_cons_self _ _)
    rcases hse : dGet nr.2 nr.1 with _ | se
    · rw [hse] at hnr; cases hnr
    · refine ⟨(Packet.routingUpdate 0 (buildUpdate best se.2), se.2) :: sends,
        ?_, List.Forall₂.cons ⟨se, hse, rfl⟩ hrel⟩
      rw [List.mapM_cons]
      simp only [hse, hs]
      rfl

theorem announce_spec (t : Table) (h : SelfKeyed t) :
    ∃ sends, announce t = some sends ∧
      List.Forall₂ (fun (nr : Nat × RouteSet) (out : Sent) =>
        ∃ se, dGet nr.2 nr.1 = some se ∧
          out = (Packet.routingUpdate 0
            (buildUpdate (allShortestPaths t) se.2), se.2)) t sends :=
  mapM_announce (allShortestPaths t) t h

theorem announce_isSome (t : Table) (h : SelfKeyed t) : (announce t).isSome := by
  obtain ⟨sends, hs, -⟩ := announce_spec t h
  rw [hs]
  rfl

/-! ## Invariant preservation -/

theorem selfKeyed_dSet (t : Table) (src : Nat) (rs : RouteSet)
    (h : SelfKeyed t) (hrs : (dGet rs src).isSome) :
    SelfKeyed (dSet t src rs) := by
  intro nr hnr
  rcases mem_dSet hnr with hmem | heq
  · exact h nr hmem
  · subst heq
    exact hrs

theorem selfKeyed_dPop (t : Table) (src : Nat) (h : SelfKeyed t) :
    SelfKeyed (dPop t src) :=
  fun nr hnr => h nr ((dPop_sublist t src).subset hnr)

theorem dKeys_dPop_nodup {α : Type} (l : List (Nat × α)) (k : Nat)
    (h : (dKeys l).Nodup) : (dKeys (dPop l k)).Nodup :=
  ((dPop_sublist l k).map Prod.fst).nodup h

/-! ## Handler equations -/

theorem handleDiscovery_up (t : Table) (src latency port : Nat)
    (h : SelfKeyed t) :
    ∃ sends,
      handleDiscoveryPacket t src latency true port
        = some (dSet t src [(src, (latency, port))], sends) ∧
      announce (dSet t src [(src, (latency, port))]) = some sends := by
  have hk : SelfKeyed (dSet t src [(src, (latency, port))]) :=
    selfKeyed_dSet t src _ h (by simp [dGet])
  obtain ⟨sends, hs, -⟩ := announce_spec _ hk
  refine ⟨sends, ?_, hs⟩
  unfold handleDiscoveryPacket
  rw [if_pos rfl, hs]

theorem handleDiscovery_down_mem (t : Table) (src latency port : Nat)
    (h : SelfKeyed t) (hmem : (dGet t src).isSome) :
    ∃ sends,
      handleDiscoveryPacket t src latency false port
        = some (dPop t src, sends) ∧
      announce (dPop t src) = some sends := by
  obtain ⟨sends, hs, -⟩ := announce_spec _ (selfKeyed_dPop t src h)
  refine ⟨sends, ?_, hs⟩
  unfold handleDiscoveryPacket
  rw [if_neg (by simp), if_pos hmem, hs]

theorem handleDiscovery_down_absent (t : Table) (src latency port : Nat)
    (habs : dGet t src = none) :
    handleDiscoveryPacket t src latency false port = some (t, []) := by
  unfold handleDiscoveryPacket
  rw [if_neg (by simp), if_neg (by rw [habs]; simp)]

theorem handleRoutingUpdate_unknown (t : Table) (src port : Nat)
    (paths : List (Nat × Nat)) (h : dGet t src = none) :
    handleRoutingUpdate t src paths port = some (t, []) := by
  unfold handleRoutingUpdate
  rw [h]

theorem handleRoutingUpdate_eq (t : Table) (src port : Nat)
    (paths : List (Nat × Nat)) (rs : RouteSet) (se : Route)
    (hrs : dGet t src = some rs) (hse : dGet rs src = some se) :
    handleRoutingUpdate t src paths port =
      (if (paths.foldl (mergeStep se.1 port) (rs, false)).2 = true then
        match announce (dSet t src (paths.foldl (mergeStep se.1 port) (rs, false)).1) with
        | none => none
        | some sends =>
          some (dSet t src (paths.foldl (mergeStep se.1 port) (rs, false)).1, sends)
      else some (t, [])) := by
  unfold handleRoutingUpdate
  simp only [hrs]
  rw [mergeFoldO_eq rs src port paths se hse]

/-! ## One-step invariant (`handle_rx`) -/

theorem lastLinkUp_cons (e : Packet × Nat) (evs : List (Packet × Nat)) (n : Nat) :
    lastLinkUp (e :: evs) n =
      match lastLinkUp evs n with
      | some r => some r
      | none => linkUpOf e n := rfl

theorem run_cons (t : Table) (e : Packet × Nat) (evs : List (Packet × Nat)) :
    run t (e :: evs) =
      match handle_rx t e.1 e.2 with
      | none => none
      | some (t1, _) => run t1 evs := rfl

theorem handle_rx_step (t : Table) (e : Packet × Nat)
    (h : SelfKeyed t) (hnd : (dKeys t).Nodup) :
    ∃ t1 sends, handle_rx t e.1 e.2 = some (t1, sends) ∧ SelfKeyed t1 ∧
      (dKeys t1).Nodup ∧
      (∀ n, (dGet t1 n).isSome →
        selfOf t1 n =
          (match linkUpOf e n with
           | some r => some r
           | none => selfOf t n)) ∧
      (∀ n, (dGet t1 n).isSome →
        (linkUpOf e n).isSome ∨ (dGet t n).isSome) := by
  obtain ⟨pkt, port⟩ := e
  cases pkt with
  | data dst content =>
    refine ⟨t, handleDataPacket t dst content, rfl, h, hnd, ?_, ?_⟩
    · intro n _
      rfl
    · intro n hn
      exact Or.inr hn
  | discovery src latency up =>
    cases up with
    | true =>
      obtain ⟨sends, heq, -⟩ := handleDiscovery_up t src latency port h
      refine ⟨_, sends, heq, selfKeyed_dSet t src _ h (by simp [dGet]),
        dKeys_dSet_nodup _ _ hnd, ?_, ?_⟩
      · intro n hn
        by_cases hsn : src = n
        · subst hsn
          simp [selfOf, linkUpOf, dGet_dSet_self, dGet]
        · simp only [selfOf, linkUpOf]
          rw [dGet_dSet_ne _ _ hsn]
          simp [hsn]
      · intro n hn
        by_cases hsn : src = n
        · subst hsn
          left
          simp [linkUpOf]
        · right
          rw [dGet_dSet_ne _ _ hsn] at hn
          exact hn
    | false =>
      by_cases hmem : (dGet t src).isSome
      · obtain ⟨sends, heq, -⟩ := handleDiscovery_down_mem t src latency port h hmem
        refine ⟨dPop t src, sends, heq, selfKeyed_dPop t src h,
          dKeys_dPop_nodup _ _ hnd, ?_, ?_⟩
        · intro n hn
          have hne : n ≠ src := by
            intro hc
            subst hc
            rw [dGet_dPop_self t n hnd] at hn
            cases hn
          simp only [selfOf, linkUpOf]
          rw [dGet_dPop_ne t hne]
        · intro n hn
          have hne : n ≠ src := by
            intro hc
            subst hc
            rw [dGet_dPop_self t n hnd] at hn
            cases hn
          right
          rw [dGet_dPop_ne t hne] at hn
          exact hn
      · have habs : dGet t src = none := Option.not_isSome_iff_eq_none.mp hmem
        refine ⟨t, [], handleDiscovery_down_absent t src latency port habs,
          h, hnd, fun n _ => rfl, fun n hn => Or.inr hn⟩
  | routingUpdate src paths =>
    rcases hrs : dGet t src with _ | rs
    · exact ⟨t, [], handleRoutingUpdate_unknown t src port paths hrs, h, hnd,
        fun n _ => rfl, fun n hn => Or.inr hn⟩
    · have hsek : (dGet rs src).isSome := h (src, rs) (dGet_mem hrs)
      rcases hse : dGet rs src with _ | se
      · rw [hse] at hsek; cases hsek
      · have heq := handleRoutingUpdate_eq t src port paths rs se hrs hse
        rcases hupd : (paths.foldl (mergeStep se.1 port) (rs, false)).2
        · rw [hupd, if_neg (by simp)] at heq
          exact ⟨t, [], heq, h, hnd, fun n _ => rfl, fun n hn => Or.inr hn⟩
        · have hself : dGet (paths.foldl (mergeStep se.1 port) (rs, false)).1 src
              = some se := mergeFold_self se src port paths (rs, false) hse
          have hk1 : SelfKeyed
              (dSet t src (paths.foldl (mergeStep se.1 port) (rs, false)).1) :=
            selfKeyed_dSet t src _ h (by rw [hself]; rfl)
          obtain ⟨sends, hann, -⟩ := announce_spec _ hk1
          rw [hupd, if_pos rfl, hann] at heq
          refine ⟨_, sends, heq, hk1, dKeys_dSet_nodup _ _ hnd, ?_, ?_⟩
          · intro n hn
            by_cases hsn : src = n
            · subst hsn
              simp only [selfOf, linkUpOf, dGet_dSet_self, hself, hrs, hse]
            · simp only [selfOf, linkUpOf]
              rw [dGet_dSet_ne _ _ hsn]
          · intro n hn
            by_cases hsn : src = n
            · subst hsn
              right
              rw [hrs]
              rfl
            · right
              rw [dGet_dSet_ne _ _ hsn] at hn
              exact hn

/-! ## Run-level invariant -/

theorem run_spec (evs : List (Packet × Nat)) :
    ∀ t : Table, SelfKeyed t → (dKeys t).Nodup →
      ∃ t1, run t evs = some t1 ∧ SelfKeyed t1 ∧ (dKeys t1).Nodup ∧
        (∀ n, (dGet t1 n).isSome →
          selfOf t1 n =
            (match lastLinkUp evs n with
             | some r => some r
             | none => selfOf t n)) ∧
        (∀ n, (dGet t1 n).isSome →
          (lastLinkUp evs n).isSome ∨ (dGet t n).isSome) := by
  induction evs with
  | nil =>
    intro t h hnd
    exact ⟨t, rfl, h, hnd, fun n _ => rfl, fun n hn => Or.inr hn⟩
  | cons e evs ih =>
    intro t h hnd
    obtain ⟨t1, sends, heq, h1, hnd1, hself1, hpres1⟩ := handle_rx_step t e h hnd
    obtain ⟨t2, heq2, h2, hnd2, hself2, hpres2⟩ := ih t1 h1 hnd1
    refine ⟨t2, ?_, h2, hnd2, ?_, ?_⟩
    · rw [run_cons, heq]
      exact heq2
    · intro n hn
      rw [hself2 n hn, lastLinkUp_cons]
      rcases hl : lastLinkUp evs n with _ | r
      · rcases hpres2 n hn with hp | hp
        · rw [hl] at hp
          cases hp
        · rw [hself1 n hp]
      · rfl
    · intro n hn
      rcases hpres2 n hn with hp | hp
      · left
        rw [lastLinkUp_cons]
        rcases hl : lastLinkUp evs n with _ | r
        · rw [hl] at hp
          cases hp
        · rfl
      · rcases hpres1 n hp with hq | hq
        · left
          rw [lastLinkUp_cons]
          rcases hl : lastLinkUp evs n with _ | r
          · exact hq
          · rfl
        · exact Or.inr hq

/-! ## Claims -/

/-- C8: an advertisement whose source neighbor is not a current table key
causes no mutation and no outgoing event, and the handler returns normally
(`some`, never a raised error): the state after handling equals the state
before. -/
theorem claim_C8 (t : Table) (src port : Nat) (paths : List (Nat × Nat))
    (h : dGet t src = none) :
    handle_rx t (Packet.routingUpdate src paths) port = some (t, []) :=
  handleRoutingUpdate_unknown t src port paths h

/-- Witness for C8 at a concrete table and advertisement. -/
theorem claim_C8_witness :
    handle_rx [(5, [(5, (1, 2))])] (Packet.routingUpdate 7 [(1, 2)]) 3
      = some ([(5, [(5, (1, 2))])], []) :=
  claim_C8 [(5, [(5, (1, 2))])] 7 3 [(1, 2)] rfl

/-- C10: handling a data payload never mutates the routing table — whatever
table comes back from `handle_rx` on a data packet is the input table (and
the announcer, which returns only emissions, has no table output at all). -/
theorem claim_C10 (t : Table) (dst content port : Nat) (tout : Table)
    (sends : List Sent)
    (h : handle_rx t (Packet.data dst content) port = some (tout, sends)) :
    tout = t := by
  have h1 : (t, handleDataPacket t dst content) = (tout, sends) :=
    Option.some.inj h
  exact (congrArg Prod.fst h1).symm

/-- Witness for C10 at a concrete table and payload. -/
theorem claim_C10_witness : ([(1, [(2, (3, 4))])] : Table) = [(1, [(2, (3, 4))])] :=
  claim_C10 [(1, [(2, (3, 4))])] 2 9 0 [(1, [(2, (3, 4))])]
    [(Packet.data 2 9, 4)] rfl

/-- C9: the end-to-end scenario.  From the empty table, link-up of neighbor
0 with distance 1 on port 1 yields the table `{0: {0: (1,1)}}` and exactly
one empty advertisement out port 1; then an advertisement from 0 containing
`{(1, 2)}` on port 1 merges `1 ↦ (3, 1)` (candidate `2+1=3`) into 0's route
set and emits one advertisement out port 1 that does not contain
destination 1 (split horizon). -/
theorem claim_C9 :
    runTrace [] [(Packet.discovery 0 1 true, 1)]
        = some ([(0, [(0, (1, 1))])], [(Packet.routingUpdate 0 [], 1)]) ∧
    runTrace [] [(Packet.discovery 0 1 true, 1), (Packet.routingUpdate 0 [(1, 2)], 1)]
        = some ([(0, [(0, (1, 1)), (1, (3, 1))])],
            [(Packet.routingUpdate 0 [], 1), (Packet.routingUpdate 0 [], 1)]) ∧
    dGet [(0, (1, 1)), (1, (3, 1))] 1 = some (3, 1) :=
  ⟨rfl, rfl, rfl⟩

/-- C6: a link-up for `src` with distance `latency` on `port` replaces the
neighbor's route set with exactly the one-entry map `{src: (latency, port)}`
(discarding everything previously learned through `src`), leaves every other
neighbor untouched, and triggers the announcer on the new table; on a fresh
engine the resulting table is exactly `[(src, [(src, (latency, port))])]`. -/
theorem claim_C6 (t : Table) (src latency port : Nat) (h : SelfKeyed t) :
    ∃ sends,
      handle_rx t (Packet.discovery src latency true) port
        = some (dSet t src [(src, (latency, port))], sends) ∧
      announce (dSet t src [(src, (latency, port))]) = some sends ∧
      dGet (dSet t src [(src, (latency, port))]) src
        = some [(src, (latency, port))] ∧
      (∀ m, m ≠ src → dGet (dSet t src [(src, (latency, port))]) m = dGet t m) ∧
      run [] [(Packet.discovery src latency true, port)]
        = some [(src, [(src, (latency, port))])] := by
  obtain ⟨sends, heq, hann⟩ := handleDiscovery_up t src latency port h
  refine ⟨sends, heq, hann, dGet_dSet_self t src _,
    fun m hm => dGet_dSet_ne t _ (fun hc => hm hc.symm), ?_⟩
  obtain ⟨s0, heq0, -⟩ :=
    handleDiscovery_up [] src latency port (fun nr hnr => absurd hnr (List.not_mem_nil nr))
  rw [run_cons]
  simp only [handle_rx]
  rw [heq0]
  rfl

/-- Witness for C6 at a concrete table and link-up event. -/
theorem claim_C6_witness :
    ∃ sends, handle_rx [(2, [(2, (5, 6))])] (Packet.discovery 0 1 true) 1
      = some ([(2, [(2, (5, 6))]), (0, [(0, (1, 1))])], sends) := by
  obtain ⟨sends, heq, -⟩ := claim_C6 [(2, [(2, (5, 6))])] 0 1 1 (by unfold SelfKeyed; decide)
  exact ⟨sends, heq⟩

/-- C7: a link-down for a present neighbor removes that neighbor's entire
table entry (it is no longer a key; every destination learned via it is
forgotten), leaves the other neighbors untouched and triggers the
announcer; a link-down for an absent neighbor leaves the table unchanged,
sends nothing, and returns normally rather than raising. -/
theorem claim_C7 (t : Table) (src latency port : Nat)
    (h : SelfKeyed t) (hnd : (dKeys t).Nodup) :
    ((dGet t src).isSome →
      ∃ sends,
        handle_rx t (Packet.discovery src latency false) port
          = some (dPop t src, sends) ∧
        announce (dPop t src) = some sends ∧
        dGet (dPop t src) src = none ∧
        ∀ m, m ≠ src → dGet (dPop t src) m = dGet t m) ∧
    (dGet t src = none →
      handle_rx t (Packet.discovery src latency false) port = some (t, [])) := by
  constructor
  · intro hmem
    obtain ⟨sends, heq, hann⟩ := handleDiscovery_down_mem t src latency port h hmem
    exact ⟨sends, heq, hann, dGet_dPop_self t src hnd,
      fun m hm => dGet_dPop_ne t hm⟩
  · intro habs
    exact handleDiscovery_down_absent t src latency port habs

/-- Witness for C7: one present-neighbor link-down and one redundant
link-down at concrete tables. -/
theorem claim_C7_witness :
    (∃ sends,
      handle_rx [(0, [(0, (1, 2))]), (3, [(3, (4, 5))])]
          (Packet.discovery 0 9 false) 7
        = some ([(3, [(3, (4, 5))])], sends)) ∧
    handle_rx [(0, [(0, (1, 2))]), (3, [(3, (4, 5))])]
        (Packet.discovery 6 9 false) 7
      = some ([(0, [(0, (1, 2))]), (3, [(3, (4, 5))])], []) := by
  constructor
  · obtain ⟨sends, heq, -⟩ :=
      (claim_C7 [(0, [(0, (1, 2))]), (3, [(3, (4, 5))])] 0 9 7
        (by unfold SelfKeyed; decide) (by decide)).1 (by decide)
    exact ⟨sends, heq⟩
  · exact (claim_C7 [(0, [(0, (1, 2))]), (3, [(3, (4, 5))])] 6 9 7
      (by unfold SelfKeyed; decide) (by decide)).2 rfl

/-- C3: the forwarder scans every neighbor's route set.  When the scan
yields a route, the payload is forwarded unchanged out its port, and that
route is one of the candidates (`occs`), of minimum distance among them,
and the first candidate attaining that distance (first-seen wins on ties).
When no route set contains the destination nothing is sent and the handler
returns normally; and whenever some set contains it, the scan succeeds. -/
theorem claim_C3 (t : Table) (dst content port : Nat) :
    (∀ r, forwarderScan t dst = some r →
      handle_rx t (Packet.data dst content) port
          = some (t, [(Packet.data dst content, r.2)]) ∧
        r ∈ occs t dst ∧ (∀ x ∈ occs t dst, r.1 ≤ x.1) ∧
        (occs t dst).find? (fun x => decide (x.1 ≤ r.1)) = some r) ∧
    ((∀ nr ∈ t, dGet nr.2 dst = none) →
      handle_rx t (Packet.data dst content) port = some (t, [])) ∧
    ((∃ nr ∈ t, (dGet nr.2 dst).isSome) → (forwarderScan t dst).isSome) := by
  refine ⟨?_, ?_, ?_⟩
  · intro r hr
    refine ⟨?_, forwarderScan_some_spec t dst r hr⟩
    show some (t, handleDataPacket t dst content) = _
    unfold handleDataPacket
    rw [hr]
  · intro hnone
    have hscan : forwarderScan t dst = none :=
      (forwarderScan_none_iff t dst).mpr ((occs_eq_nil_iff t dst).mpr hnone)
    show some (t, handleDataPacket t dst content) = _
    unfold handleDataPacket
    rw [hscan]
  · rintro ⟨nr, hmem, hsome⟩
    rcases hscan : forwarderScan t dst with _ | r
    · have := (occs_eq_nil_iff t dst).mp ((forwarderScan_none_iff t dst).mp hscan)
      rw [this nr hmem] at hsome
      cases hsome
    · rfl

/-- Witness for C3: with two neighbors knowing destination 7 at equal
distance 5, the first-seen route (port 2) wins and the payload goes out
unchanged; a destination known to nobody is dropped with no error. -/
theorem claim_C3_witness :
    handle_rx [(1, [(7, (5, 2))]), (3, [(7, (5, 9)), (8, (1, 4))])]
        (Packet.data 7 42) 0
      = some ([(1, [(7, (5, 2))]), (3, [(7, (5, 9)), (8, (1, 4))])],
          [(Packet.data 7 42, 2)]) ∧
    handle_rx [(1, [(7, (5, 2))])] (Packet.data 8 42) 0
      = some ([(1, [(7, (5, 2))])], []) := by
  constructor
  · exact ((claim_C3 [(1, [(7, (5, 2))]), (3, [(7, (5, 9)), (8, (1, 4))])]
      7 42 0).1 (5, 2) rfl).1
  · exact (claim_C3 [(1, [(7, (5, 2))])] 8 42 0).2.1 (by decide)

/-- C4: from the empty table, any event sequence runs to completion (no
lookup in the merge handler or the announcer ever fails — with `Nat`
distances every distance is non-negative), the announcer succeeds on the
resulting table, and every neighbor key holds a self-entry equal to the
`(distance, port)` of its most recent link-up. -/
theorem claim_C4 (evs : List (Packet × Nat)) :
    ∃ t, run [] evs = some t ∧ (announce t).isSome ∧
      ∀ n rs, dGet t n = some rs → dGet rs n = lastLinkUp evs n := by
  obtain ⟨t1, heq, h1, hnd1, hself, hpres⟩ :=
    run_spec evs [] (fun nr hnr => absurd hnr (List.not_mem_nil _)) (by simp [dKeys])
  refine ⟨t1, heq, announce_isSome t1 h1, ?_⟩
  intro n rs hget
  have hsome : (dGet t1 n).isSome := by rw [hget]; rfl
  have h2 := hself n hsome
  simp only [selfOf, hget, dGet] at h2
  rw [h2]
  rcases lastLinkUp evs n with _ | r
  · rfl
  · rfl

/-- Witness for C4 at a concrete event sequence (a link-up then a merge). -/
theorem claim_C4_witness :
    dGet [(5, (2, 7)), (9, (6, 7))] 5
      = lastLinkUp [(Packet.discovery 5 2 true, 7),
          (Packet.routingUpdate 5 [(9, 4)], 7)] 5 := by
  obtain ⟨t, heq, -, hself⟩ :=
    claim_C4 [(Packet.discovery 5 2 true, 7), (Packet.routingUpdate 5 [(9, 4)], 7)]
  have ht : t = [(5, [(5, (2, 7)), (9, (6, 7))])] := by
    have h2 : some t = some [(5, [(5, (2, 7)), (9, (6, 7))])] := by
      rw [← heq]
      rfl
    exact Option.some.inj h2
  subst ht
  exact hself 5 [(5, (2, 7)), (9, (6, 7))] rfl

/-- C1: merging an advertisement from a known neighbor `src` (self-entry
`se`, direct link distance `se.1`) computes, for each advertised pair
`(d, a)`, the candidate `a + se.1` and stores `(candidate, arrival port)`
exactly when `d` is absent from the neighbor's set or the stored distance is
strictly greater than the candidate; on a tie (or a worse candidate) the
existing entry — distance and port — is retained, destinations not
advertised are untouched, and no destination is ever removed. -/
theorem claim_C1 (t : Table) (src port : Nat) (paths : List (Nat × Nat))
    (rs : RouteSet) (se : Route) (h : SelfKeyed t)
    (hrs : dGet t src = some rs) (hse : dGet rs src = some se)
    (hnd : (paths.map Prod.fst).Nodup) :
    ∃ t1 sends info,
      handleRoutingUpdate t src paths port = some (t1, sends) ∧
      dGet t1 src = some info ∧
      (∀ d a, (d, a) ∈ paths →
        dGet info d =
          (match dGet rs d with
           | none => some (a + se.1, port)
           | some r => if r.1 > a + se.1 then some (a + se.1, port) else some r)) ∧
      (∀ d, d ∉ paths.map Prod.fst → dGet info d = dGet rs d) ∧
      (∀ d, (dGet rs d).isSome → (dGet info d).isSome) := by
  have heq := handleRoutingUpdate_eq t src port paths rs se hrs hse
  have hA : ∀ d a, (d, a) ∈ paths →
      dGet (paths.foldl (mergeStep se.1 port) (rs, false)).1 d =
        (match dGet rs d with
         | none => some (a + se.1, port)
         | some r => if r.1 > a + se.1 then some (a + se.1, port) else some r) :=
    fun d a hmem => mergeFold_get se.1 port paths hnd (rs, false) d a hmem
  have hB : ∀ d, d ∉ paths.map Prod.fst →
      dGet (paths.foldl (mergeStep se.1 port) (rs, false)).1 d = dGet rs d :=
    fun d hd => mergeFold_frame se.1 port paths (rs, false) d hd
  have hC : ∀ d, (dGet rs d).isSome →
      (dGet (paths.foldl (mergeStep se.1 port) (rs, false)).1 d).isSome := by
    intro d hd
    by_cases hmem : d ∈ paths.map Prod.fst
    · obtain ⟨x, hx, hxd⟩ := List.mem_map.mp hmem
      have hx2 : (d, x.2) ∈ paths := by
        rw [← hxd]
        exact hx
      rw [hA d x.2 hx2]
      rcases hg : dGet rs d with _ | r
      · rfl
      · dsimp only
        split
        · rfl
        · rfl
    · rw [hB d hmem]
      exact hd
  rcases hupd : (paths.foldl (mergeStep se.1 port) (rs, false)).2
  · have hinfo : (paths.foldl (mergeStep se.1 port) (rs, false)).1 = rs :=
      congrArg Prod.fst (mergeFold_false se.1 port paths (rs, false) hupd)
    rw [hupd, if_neg (by simp)] at heq
    rw [hinfo] at hA hB hC
    exact ⟨t, [], rs, heq, hrs, hA, hB, hC⟩
  · have hself : dGet (paths.foldl (mergeStep se.1 port) (rs, false)).1 src
        = some se := mergeFold_self se src port paths (rs, false) hse
    have hk1 : SelfKeyed
        (dSet t src (paths.foldl (mergeStep se.1 port) (rs, false)).1) :=
      selfKeyed_dSet t src _ h (by rw [hself]; rfl)
    obtain ⟨sends, hann, -⟩ := announce_spec _ hk1
    rw [hupd, if_pos rfl, hann] at heq
    exact ⟨_, sends, _, heq, dGet_dSet_self t src _, hA, hB, hC⟩

/-- Witness for C1: direct distance 1, advertisement `{4 ↦ 2, 6 ↦ 3}`;
destination 4 improves from 9 to candidate 3 and destination 6 is added at
candidate 4, both with the arrival port. -/
theorem claim_C1_witness :
    ∃ t1 sends info,
      handleRoutingUpdate [(0, [(0, (1, 1)), (4, (9, 1))])] 0 [(4, 2), (6, 3)] 1
        = some (t1, sends) ∧
      dGet t1 0 = some info ∧ dGet info 4 = some (3, 1) ∧
      dGet info 6 = some (4, 1) := by
  obtain ⟨t1, sends, info, heq, hget, hA, hB, hC⟩ :=
    claim_C1 [(0, [(0, (1, 1)), (4, (9, 1))])] 0 1 [(4, 2), (6, 3)]
      [(0, (1, 1)), (4, (9, 1))] (1, 1) (by unfold SelfKeyed; decide) rfl rfl
      (by decide)
  refine ⟨t1, sends, info, heq, hget, ?_, ?_⟩
  · rw [hA 4 2 (by decide)]
    rfl
  · rw [hA 6 3 (by decide)]
    rfl

/-- C5: the merge's `updated` flag is true exactly when some destination was
added or its stored distance strictly decreased; with no change the table is
returned exactly as it was and nothing is sent, and with a change the merged
set replaces the neighbor's entry and the announcer fires (a nonempty batch
of advertisements is emitted). -/
theorem claim_C5 (t : Table) (src port : Nat) (paths : List (Nat × Nat))
    (rs : RouteSet) (se : Route) (h : SelfKeyed t)
    (hrs : dGet t src = some rs) (hse : dGet rs src = some se)
    (hnd : (paths.map Prod.fst).Nodup) :
    ((paths.foldl (mergeStep se.1 port) (rs, false)).2 = true ↔
      ∃ d, (dGet rs d = none ∧
          (dGet (paths.foldl (mergeStep se.1 port) (rs, false)).1 d).isSome) ∨
        ∃ r r2, dGet rs d = some r ∧
          dGet (paths.foldl (mergeStep se.1 port) (rs, false)).1 d = some r2 ∧
          r2.1 < r.1) ∧
    ((paths.foldl (mergeStep se.1 port) (rs, false)).2 = false →
      handleRoutingUpdate t src paths port = some (t, []) ∧
      (paths.foldl (mergeStep se.1 port) (rs, false)).1 = rs) ∧
    ((paths.foldl (mergeStep se.1 port) (rs, false)).2 = true →
      ∃ sends,
        handleRoutingUpdate t src paths port
          = some (dSet t src (paths.foldl (mergeStep se.1 port) (rs, false)).1,
              sends) ∧
        announce (dSet t src (paths.foldl (mergeStep se.1 port) (rs, false)).1)
          = some sends ∧
        sends ≠ []) := by
  have heq := handleRoutingUpdate_eq t src port paths rs se hrs hse
  refine ⟨⟨?_, ?_⟩, ?_, ?_⟩
  · intro hupd
    obtain ⟨d, a, hmem, hcond⟩ :=
      mergeFold_exists se.1 port paths (rs, false) hupd rfl
    have hval := mergeFold_get se.1 port paths hnd (rs, false) d a hmem
    refine ⟨d, ?_⟩
    rcases hcond with hc | ⟨r, hr, hlt⟩
    · left
      simp only [hc] at hval
      rw [hval]
      exact ⟨hc, rfl⟩
    · right
      simp only [hr] at hval
      rw [if_pos hlt] at hval
      exact ⟨r, (a + se.1, port), hr, hval, by omega⟩
  · intro hex
    rcases hupd : (paths.foldl (mergeStep se.1 port) (rs, false)).2
    · exfalso
      have hinfo : (paths.foldl (mergeStep se.1 port) (rs, false)).1 = rs :=
        congrArg Prod.fst (mergeFold_false se.1 port paths (rs, false) hupd)
      rw [hinfo] at hex
      obtain ⟨d, hcase⟩ := hex
      rcases hcase with ⟨hnone, hsome⟩ | ⟨r, r2, hr, hr2, hlt⟩
      · rw [hnone] at hsome
        cases hsome
      · rw [hr, Option.some_inj] at hr2
        subst hr2
        omega
    · rfl
  · intro hupd
    rw [hupd, if_neg (by simp)] at heq
    exact ⟨heq,
      congrArg Prod.fst (mergeFold_false se.1 port paths (rs, false) hupd)⟩
  · intro hupd
    have hself : dGet (paths.foldl (mergeStep se.1 port) (rs, false)).1 src
        = some se := mergeFold_self se src port paths (rs, false) hse
    have hk1 : SelfKeyed
        (dSet t src (paths.foldl (mergeStep se.1 port) (rs, false)).1) :=
      selfKeyed_dSet t src _ h (by rw [hself]; rfl)
    obtain ⟨sends, hann, hrel⟩ := announce_spec _ hk1
    rw [hupd, if_pos rfl, hann] at heq
    refine ⟨sends, heq, hann, ?_⟩
    intro hcon
    subst hcon
    have hlen := List.Forall₂.length_eq hrel
    rw [List.length_nil, List.length_eq_zero] at hlen
    exact dSet_ne_nil t src _ hlen

/-- Witness for C5: a worse candidate (21 against stored 9) changes nothing
and sends nothing; a better candidate (3 against stored 9) rewrites the
entry and fires a nonempty announcement batch. -/
theorem claim_C5_witness :
    handleRoutingUpdate [(0, [(0, (1, 1)), (4, (9, 1))])] 0 [(4, 20)] 1
      = some ([(0, [(0, (1, 1)), (4, (9, 1))])], []) ∧
    ∃ sends,
      handleRoutingUpdate [(0, [(0, (1, 1)), (4, (9, 1))])] 0 [(4, 2)] 1
        = some (dSet [(0, [(0, (1, 1)), (4, (9, 1))])] 0
            (([(4, 2)].foldl (mergeStep 1 1)
              ([(0, (1, 1)), (4, (9, 1))], false)).1), sends) ∧
      sends ≠ [] := by
  constructor
  · exact ((claim_C5 [(0, [(0, (1, 1)), (4, (9, 1))])] 0 1 [(4, 20)]
      [(0, (1, 1)), (4, (9, 1))] (1, 1) (by unfold SelfKeyed; decide) rfl rfl
      (by decide)).2.1 rfl).1
  · obtain ⟨sends, heq, -, hne⟩ :=
      (claim_C5 [(0, [(0, (1, 1)), (4, (9, 1))])] 0 1 [(4, 2)]
        [(0, (1, 1)), (4, (9, 1))] (1, 1) (by unfold SelfKeyed; decide) rfl rfl
        (by decide)).2.2 rfl
    exact ⟨sends, heq, hne⟩

/-- C2: on any well-formed table the announcer succeeds and emits exactly
one advertisement per neighbor in table order (even when its body is
empty), each out the neighbor's own port and containing exactly the
`(dest, distance)` pairs of the global best map whose winning port differs
from that port (split horizon); and the best map agrees pointwise with the
forwarder's scan (the same aggregation logic). -/
theorem claim_C2 (t : Table) (h : SelfKeyed t) (hs : SetsNodup t) :
    ∃ sends, announce t = some sends ∧ sends.length = t.length ∧
      List.Forall₂ (fun (nr : Nat × RouteSet) (out : Sent) =>
        ∃ se, dGet nr.2 nr.1 = some se ∧
          out = (Packet.routingUpdate 0
            (buildUpdate (allShortestPaths t) se.2), se.2)) t sends ∧
      (∀ nport d dist,
        (d, dist) ∈ buildUpdate (allShortestPaths t) nport ↔
          ∃ p, dGet (allShortestPaths t) d = some (dist, p) ∧ p ≠ nport) ∧
      (∀ d, dGet (allShortestPaths t) d = forwarderScan t d) := by
  obtain ⟨sends, hann, hrel⟩ := announce_spec t h
  exact ⟨sends, hann, (List.Forall₂.length_eq hrel).symm, hrel,
    fun nport d dist => buildUpdate_mem _ nport (allShortestPaths_nodup t) d dist,
    fun d => allShortestPaths_get t hs d⟩

/-- Witness for C2 at a concrete two-neighbor table. -/
theorem claim_C2_witness :
    ∃ sends,
      announce [(1, [(1, (2, 3)), (9, (5, 3))]), (4, [(4, (1, 6))])]
        = some sends ∧
      sends.length = 2 := by
  obtain ⟨sends, hann, hlen, -⟩ :=
    claim_C2 [(1, [(1, (2, 3)), (9, (5, 3))]), (4, [(4, (1, 6))])]
      (by unfold SelfKeyed; decide) (by unfold SetsNodup; decide)
  exact ⟨sends, hann, hlen⟩

end RIP
